import Mathlib

/-!
Shallow embedding of the tag validator in `.github/scripts/validate_tags.py`:
the per-record tag scanner (`_validate_entry_tags`), the record assembler
(`validate_tags`) and the primary/reference comparator (`main`), together with
theorems checking the specification's claims about them.

Texts are modelled as `List Char` (Python strings are sequences of code
points).  The two scanning loops advance their index by a variable amount per
step, so they are written with an explicit fuel argument that decreases by one
per iteration; the callers pass `length + 1` fuel, which is enough because each
iteration consumes at least one character (fuel-irrelevance lemmas below make
this precise).
-/

/-- Character class `[0-9A-Fa-f]` used by the hex-colour and id regexes. -/
def isHexDigitCh (c : Char) : Bool :=
  (decide ('0' ≤ c) && decide (c ≤ '9')) ||
  (decide ('A' ≤ c) && decide (c ≤ 'F')) ||
  (decide ('a' ≤ c) && decide (c ≤ 'f'))

/-- Character class `[A-Za-z]` of the named-tag regex. -/
def isAsciiAlphaCh (c : Char) : Bool :=
  (decide ('A' ≤ c) && decide (c ≤ 'Z')) || (decide ('a' ≤ c) && decide (c ≤ 'z'))

/-- Character class `[A-Za-z0-9]` of the named-tag regex. -/
def isAsciiAlnumCh (c : Char) : Bool :=
  isAsciiAlphaCh c || (decide ('0' ≤ c) && decide (c ≤ '9'))

/-- The Cyrillic test `'Ѐ' <= ch <= 'ӿ'`. -/
def isCyrillicCh (c : Char) : Bool :=
  decide (0x0400 ≤ c.toNat) && decide (c.toNat ≤ 0x04FF)

/-- The characters Python's `str.isspace()` accepts and `str.strip()` removes:
`\t\n\x0b\x0c\r`, the separators U+001C-U+001F, space, NEL (U+0085),
NBSP (U+00A0), Ogham space (U+1680), the Zs range U+2000-U+200A, the line and
paragraph separators U+2028/U+2029, U+202F, U+205F, and the ideographic space
U+3000. -/
def isPySpace (c : Char) : Bool :=
  (decide (0x09 ≤ c.toNat) && decide (c.toNat ≤ 0x0D)) ||
  (decide (0x1C ≤ c.toNat) && decide (c.toNat ≤ 0x1F)) ||
  decide (c.toNat = 0x20) || decide (c.toNat = 0x85) ||
  decide (c.toNat = 0xA0) || decide (c.toNat = 0x1680) ||
  (decide (0x2000 ≤ c.toNat) && decide (c.toNat ≤ 0x200A)) ||
  decide (c.toNat = 0x2028) || decide (c.toNat = 0x2029) ||
  decide (c.toNat = 0x202F) || decide (c.toNat = 0x205F) ||
  decide (c.toNat = 0x3000)

def ERROR_CODE_RUSSIAN_AFTER_HASH : String := "01"
def ERROR_CODE_CLOSING_TAG_WITHOUT_OPENING : String := "02"
def ERROR_CODE_OPENING_TAG_WITHOUT_CLOSING : String := "03"
def ERROR_CODE_LINK_TAG_INVALID : String := "04"
def ERROR_CODE_UNBALANCED_BRACES : String := "05"
def ERROR_CODE_CLOSING_BRACE_WITHOUT_OPENING : String := "06"
def ERROR_CODE_OPENING_BRACE_WITHOUT_CLOSING : String := "07"

/-- The spans found by `re.finditer(r'<([^>]*)>', text)`: each match runs from
a `<` to the first following `>` (`[^>]*` cannot cross a `>`), matches do not
overlap, and a `<` with no later `>` matches nothing.  `pos` is the absolute
offset of the head of `rem` in the full text; results are `(start, end)` with
`end` exclusive, as in `match.start()`/`match.end()`. -/
def linkSpans : Nat → Nat → List Char → List (Nat × Nat)
  | 0, _, _ => []
  | _ + 1, _, [] => []
  | fuel + 1, pos, c :: rest =>
    if c = '<' then
      let k := rest.findIdx (fun d => d = '>')
      if k < rest.length then
        (pos, pos + k + 2) :: linkSpans fuel (pos + k + 2) (rest.drop (k + 1))
      else
        linkSpans fuel (pos + 1) rest
    else
      linkSpans fuel (pos + 1) rest

/-- `is_inside_link_tag(pos)`: whether `pos` lies in any recorded link range. -/
def is_inside_link_tag (ranges : List (Nat × Nat)) (pos : Nat) : Bool :=
  ranges.any (fun r => decide (r.1 ≤ pos) && decide (pos < r.2))

/-- The main `while i < len(text)` pass of `_validate_entry_tags`, carrying the
tag stack and the error set.  `rem` is `text[pos:]`; each branch advances `pos`
and drops the same number of characters from `rem`, exactly as the Python loop
advances `i`:
* positions inside a link range are skipped one character at a time;
* `#E` pops the stack, or records code 02 on an empty stack;
* `#` before a maximal run of 3+ hex digits is a colour code, pushed as an
  opener only when followed by at least one character and not directly by `#E`;
* `#` before `[A-Za-z][A-Za-z0-9]*` is a named tag, pushed unless it is `#E`;
* `#` directly before a Cyrillic character records code 01 and advances one;
* anything else advances one character. -/
def tagLoop (ranges : List (Nat × Nat)) :
    Nat → Nat → List Char → List (Nat × String) → Finset String →
    List (Nat × String) × Finset String
  | 0, _, _, stack, errs => (stack, errs)
  | _ + 1, _, [], stack, errs => (stack, errs)
  | fuel + 1, pos, c :: rest, stack, errs =>
    if is_inside_link_tag ranges pos then
      tagLoop ranges fuel (pos + 1) rest stack errs
    else if c = '#' then
      match rest with
      | [] => tagLoop ranges fuel (pos + 1) rest stack errs
      | d :: rest2 =>
        if d = 'E' then
          match stack with
          | _ :: stack' => tagLoop ranges fuel (pos + 2) rest2 stack' errs
          | [] =>
            tagLoop ranges fuel (pos + 2) rest2 []
              (insert ERROR_CODE_CLOSING_TAG_WITHOUT_OPENING errs)
        else
          let hexRun := rest.takeWhile isHexDigitCh
          if 3 ≤ hexRun.length then
            let after := rest.drop hexRun.length
            let stack' :=
              if decide (after ≠ []) && decide (after.take 2 ≠ ['#', 'E']) then
                (pos, String.mk ('#' :: hexRun)) :: stack
              else stack
            tagLoop ranges fuel (pos + 1 + hexRun.length) after stack' errs
          else if isAsciiAlphaCh d then
            let tagRun := rest2.takeWhile isAsciiAlnumCh
            let stack' :=
              if String.mk ('#' :: d :: tagRun) ≠ "#E" then
                (pos, String.mk ('#' :: d :: tagRun)) :: stack
              else stack
            tagLoop ranges fuel (pos + 2 + tagRun.length) (rest2.drop tagRun.length)
              stack' errs
          else if isCyrillicCh d then
            tagLoop ranges fuel (pos + 1) rest stack
              (insert ERROR_CODE_RUSSIAN_AFTER_HASH errs)
          else
            tagLoop ranges fuel (pos + 1) rest stack errs
    else
      tagLoop ranges fuel (pos + 1) rest stack errs

/-- Python `content.split('|')` on a character list (separator is one char, so
the part count is the pipe count plus one). -/
def splitPipe : List Char → List (List Char)
  | [] => [[]]
  | c :: rest =>
    let r := splitPipe rest
    if c = '|' then [] :: r
    else
      match r with
      | h :: t => (c :: h) :: t
      | [] => [[c]]

/-- Python `s.strip()` (whitespace from both ends). -/
def pyStripList (s : List Char) : List Char :=
  ((s.dropWhile isPySpace).reverse.dropWhile isPySpace).reverse

/-- `re.match(r'^[A-Z/]', s)` as used on the stripped link content. -/
def startsUpperOrSlash : List Char → Bool
  | [] => false
  | c :: _ => (decide ('A' ≤ c) && decide (c ≤ 'Z')) || c = '/'

/-- The link-tag validation loop: for every `<...>` span, skip HTML-like
content (stripped content led by an uppercase letter or `/`), otherwise if the
content has a pipe and does not split into 4 or 5 parts record code 04. -/
def linkCheck (t : List Char) (spans : List (Nat × Nat)) (errs : Finset String) :
    Finset String :=
  spans.foldl
    (fun acc r =>
      let content := (t.drop (r.1 + 1)).take (r.2 - r.1 - 2)
      if startsUpperOrSlash (pyStripList content) then acc
      else if content.contains '|' then
        if decide ((splitPipe content).length ≠ 4) &&
            decide ((splitPipe content).length ≠ 5) then
          insert ERROR_CODE_LINK_TAG_INVALID acc
        else acc
      else acc)
    errs

/-- The brace pass: push positions of `{`; on `}` pop, or record code 06 when
the stack is empty. -/
def braceLoop : List Char → List Nat → Finset String → Nat → List Nat × Finset String
  | [], stack, errs, _ => (stack, errs)
  | c :: rest, stack, errs, pos =>
    if c = '{' then braceLoop rest (pos :: stack) errs (pos + 1)
    else if c = '}' then
      match stack with
      | [] =>
        braceLoop rest [] (insert ERROR_CODE_CLOSING_BRACE_WITHOUT_OPENING errs) (pos + 1)
      | _ :: stack' => braceLoop rest stack' errs (pos + 1)
    else braceLoop rest stack errs (pos + 1)

/-- The brace section of `_validate_entry_tags`: code 05 when the `{`/`}`
counts differ, then the stack pass adding 06, then 07 when the stack ends
non-empty. -/
def braceErrors (t : List Char) (errs : Finset String) : Finset String :=
  let errs :=
    if t.count '{' ≠ t.count '}' then insert ERROR_CODE_UNBALANCED_BRACES errs
    else errs
  let p := braceLoop t [] errs 0
  if p.1 ≠ [] then insert ERROR_CODE_OPENING_BRACE_WITHOUT_CLOSING p.2 else p.2

/-- The tag pass of `_validate_entry_tags` started on the whole text with an
empty stack and no errors, plus the code 03 check on the final stack. -/
def tagErrors (t : List Char) : Finset String :=
  if (tagLoop (linkSpans (t.length + 1) 0 t) (t.length + 1) 0 t [] ∅).1 ≠ [] then
    insert ERROR_CODE_OPENING_TAG_WITHOUT_CLOSING
      (tagLoop (linkSpans (t.length + 1) 0 t) (t.length + 1) 0 t [] ∅).2
  else (tagLoop (linkSpans (t.length + 1) 0 t) (t.length + 1) 0 t [] ∅).2

/-- `scan(text)`: the whole per-record scanner of `_validate_entry_tags`
applied to the text part of a record — the tag pass with code 03 on a
non-empty final stack, then link validation over the same spans, then the
brace checks. -/
def scan (text : String) : Finset String :=
  braceErrors text.data
    (linkCheck text.data (linkSpans (text.data.length + 1) 0 text.data)
      (tagErrors text.data))

/-- A line terminator stripped by `rstrip('\n\r')`. -/
def isNLCh (c : Char) : Bool := c == '\n' || c == '\r'

/-- `rstrip('\n\r')` on a character list. -/
def rstripNLData (l : List Char) : List Char :=
  (l.reverse.dropWhile isNLCh).reverse

/-- Python `line.rstrip('\n\r')`. -/
def rstripNL (s : String) : String :=
  String.mk (rstripNLData s.data)

/-- `not line.strip()`: the (already `rstrip`ped) line is blank. -/
def isBlankLine (line : String) : Bool :=
  line.data.all isPySpace

/-- `re.match(r'^[0-9a-fA-F]{16}\t', line)`: exactly sixteen hex characters
followed by a tab. -/
def isNewEntry (line : String) : Bool :=
  (line.data.take 16).all isHexDigitCh && ((line.data.drop 16).head? == some '\t')

/-- Python `s.split('\t', 1)`: one part when there is no tab, otherwise the
part before the first tab and everything after it. -/
def splitTabOnce (s : String) : List String :=
  if s.data.contains '\t' then
    [String.mk (s.data.takeWhile (fun c => c ≠ '\t')),
     String.mk ((s.data.dropWhile (fun c => c ≠ '\t')).drop 1)]
  else [s]

/-- The record assembler's loop state in `validate_tags`:
`current_entry_lines`, `entry_start_line`, `current_id`, plus the records
flushed so far as `(start_line, id, full_text)` triples (the Python flushes a
record straight into `_validate_entry_tags`; only records with a start line
and an id are flushed). -/
structure AsmState where
  current : List String
  startLine : Option Nat
  currId : Option String
  records : List (Nat × String × String)
deriving DecidableEq

/-- Flush `current_entry_lines` as one record when non-empty and both
`entry_start_line` and `current_id` are set. -/
def asmFlush (st : AsmState) : List (Nat × String × String) :=
  match st.current, st.startLine, st.currId with
  | [], _, _ => st.records
  | _, some sl, some i => st.records ++ [(sl, i, String.join st.current)]
  | _, _, _ => st.records

/-- One iteration of the assembler loop for the numbered line `(line_num,
original_line)`: blank lines (after `rstrip('\n\r')`) are skipped, a
record-start line flushes the open record and begins a new one, any other line
is appended verbatim to the open record. -/
def asmStep (st : AsmState) (ln : Nat × String) : AsmState :=
  let line := rstripNL ln.2
  if isBlankLine line then st
  else if isNewEntry line then
    let newId :=
      match splitTabOnce line with
      | [a, _] => some a
      | _ => st.currId
    { current := [ln.2], startLine := some ln.1, currId := newId,
      records := asmFlush st }
  else if decide (st.current ≠ []) then { st with current := st.current ++ [ln.2] }
  else st

/-- Number the lines after the header starting at 2, as
`enumerate(lines[1:], start=2)`. -/
def numberLines : Nat → List String → List (Nat × String)
  | _, [] => []
  | n, l :: ls => (n, l) :: numberLines (n + 1) ls

/-- The record assembler of `validate_tags`: drop the header line, run the
loop over the numbered remaining lines, and flush the last open record. -/
def assemble (lines : List String) : List (Nat × String × String) :=
  match lines with
  | [] => []
  | _ :: rest =>
    asmFlush ((numberLines 2 rest).foldl asmStep ⟨[], none, none, []⟩)

/-- The head of `_validate_entry_tags`: strip trailing line terminators from
the accumulated text, split once on the first tab into `(id, text)`; a record
with no tab is dropped. -/
def recordText (full : String) : Option (String × String) :=
  match splitTabOnce (rstripNL full) with
  | [a, b] => some (a, b)
  | _ => none

/-- Classification of an id's defect across the two language files, from the
label logic in `main` (`[RU\EN]`, `[RU]`, `[EN]`). -/
inductive Classification where
  | PrimaryOnly
  | Both
  | ReferenceOnly
deriving DecidableEq

/-- `errors.get(entry_id, set())` over an association-list map. -/
def mapGet (m : List (String × Finset String)) (k : String) : Finset String :=
  match m.lookup k with
  | some s => s
  | none => ∅

/-- The branch in `main`: both non-empty is `[RU\EN]` (Both), only the
reference non-empty is `[EN]` (ReferenceOnly), otherwise `[RU]`
(PrimaryOnly). -/
def classify (ruCodes enCodes : Finset String) : Classification :=
  if ruCodes ≠ ∅ ∧ enCodes ≠ ∅ then .Both
  else if enCodes ≠ ∅ then .ReferenceOnly
  else .PrimaryOnly

/-- The comparator of `main`: over every id present in either map, report the
union `ru_error_codes | en_error_codes` and the classification. -/
def compareMaps (ru en : List (String × Finset String)) :
    List (String × Finset String × Classification) :=
  ((ru.map Prod.fst ++ en.map Prod.fst).dedup).map
    (fun k => (k, mapGet ru k ∪ mapGet en k, classify (mapGet ru k) (mapGet en k)))

/-- The closed enumeration of the seven error codes of the taxonomy. -/
def errorCodeSet : Finset String :=
  {ERROR_CODE_RUSSIAN_AFTER_HASH, ERROR_CODE_CLOSING_TAG_WITHOUT_OPENING,
   ERROR_CODE_OPENING_TAG_WITHOUT_CLOSING, ERROR_CODE_LINK_TAG_INVALID,
   ERROR_CODE_UNBALANCED_BRACES, ERROR_CODE_CLOSING_BRACE_WITHOUT_OPENING,
   ERROR_CODE_OPENING_BRACE_WITHOUT_CLOSING}

/-! ### Generic list helpers -/

theorem takeWhile_all_true {p : Char → Bool} {l : List Char}
    (h : ∀ c ∈ l, p c = true) : l.takeWhile p = l :=
  List.takeWhile_eq_self_iff.mpr h

theorem takeWhile_append_stop {p : Char → Bool} {l l' : List Char} {x : Char}
    (hl : ∀ c ∈ l, p c = true) (hx : p x = false) :
    (l ++ x :: l').takeWhile p = l := by
  induction l with
  | nil => simp [List.takeWhile_cons_of_neg, hx]
  | cons c rest ih =>
    rw [List.cons_append, List.takeWhile_cons_of_pos (by simp [hl c (by simp)])]
    rw [ih (fun d hd => hl d (by simp [hd]))]

theorem dropWhile_all_false {p : Char → Bool} {l : List Char}
    (h : ∀ c ∈ l, p c = false) : l.dropWhile p = l := by
  cases l with
  | nil => rfl
  | cons c rest => exact List.dropWhile_cons_of_neg (by simp [h c (by simp)])

theorem dropWhile_append_stop {p : Char → Bool} {l l' : List Char} {x : Char}
    (hl : ∀ c ∈ l, p c = true) (hx : p x = false) :
    (l ++ x :: l').dropWhile p = x :: l' := by
  induction l with
  | nil => simp [List.dropWhile_cons_of_neg, hx]
  | cons c rest ih =>
    rw [List.cons_append, List.dropWhile_cons_of_pos (by simp [hl c (by simp)])]
    exact ih (fun d hd => hl d (by simp [hd]))

/-! ### Brace pass lemmas -/

theorem braceLoop_mono {e : String} :
    ∀ (rem : List Char) (stack : List Nat) (errs : Finset String) (pos : Nat),
      e ∈ errs → e ∈ (braceLoop rem stack errs pos).2 := by
  intro rem
  induction rem with
  | nil => intro stack errs pos h; exact h
  | cons c rest ih =>
    intro stack errs pos h
    by_cases h1 : c = '{'
    · simpa [braceLoop, h1] using ih _ _ _ h
    · by_cases h2 : c = '}'
      · cases stack with
        | nil => simpa [braceLoop, h1, h2] using ih _ _ _ (Finset.mem_insert_of_mem h)
        | cons s ss => simpa [braceLoop, h1, h2] using ih _ _ _ h
      · simpa [braceLoop, h1, h2] using ih _ _ _ h

theorem braceLoop_mem_sub {e : String} :
    ∀ (rem : List Char) (stack : List Nat) (errs : Finset String) (pos : Nat),
      e ∈ (braceLoop rem stack errs pos).2 →
      e = ERROR_CODE_CLOSING_BRACE_WITHOUT_OPENING ∨ e ∈ errs := by
  intro rem
  induction rem with
  | nil => intro stack errs pos h; exact Or.inr h
  | cons c rest ih =>
    intro stack errs pos h
    by_cases h1 : c = '{'
    · exact ih _ _ _ (by simpa [braceLoop, h1] using h)
    · by_cases h2 : c = '}'
      · cases stack with
        | nil =>
          rcases ih _ _ _ (by simpa [braceLoop, h1, h2] using h) with h' | h'
          · exact Or.inl h'
          · rcases Finset.mem_insert.mp h' with h'' | h''
            · exact Or.inl h''
            · exact Or.inr h''
        | cons s ss => exact ih _ _ _ (by simpa [braceLoop, h1, h2] using h)
      · exact ih _ _ _ (by simpa [braceLoop, h1, h2] using h)

theorem braceLoop_stack_ge :
    ∀ (rem : List Char) (stack : List Nat) (errs : Finset String) (pos : Nat),
      stack.length + rem.count '{' ≤
        (braceLoop rem stack errs pos).1.length + rem.count '}' := by
  intro rem
  induction rem with
  | nil => intro stack errs pos; simp [braceLoop]
  | cons c rest ih =>
    intro stack errs pos
    by_cases h1 : c = '{'
    · have := ih (pos :: stack) errs (pos + 1)
      simp [braceLoop, h1, List.count_cons] at this ⊢
      omega
    · by_cases h2 : c = '}'
      · cases stack with
        | nil =>
          have := ih [] (insert ERROR_CODE_CLOSING_BRACE_WITHOUT_OPENING errs) (pos + 1)
          simp [braceLoop, h1, h2, List.count_cons] at this ⊢
          omega
        | cons s ss =>
          have := ih ss errs (pos + 1)
          simp [braceLoop, h1, h2, List.count_cons] at this ⊢
          omega
      · have := ih stack errs (pos + 1)
        simp [braceLoop, h1, h2, List.count_cons] at this ⊢
        omega

theorem braceLoop_close_mem :
    ∀ (rem : List Char) (stack : List Nat) (errs : Finset String) (pos : Nat),
      stack.length + rem.count '{' < rem.count '}' →
      ERROR_CODE_CLOSING_BRACE_WITHOUT_OPENING ∈ (braceLoop rem stack errs pos).2 := by
  intro rem
  induction rem with
  | nil => intro stack errs pos h; simp at h
  | cons c rest ih =>
    intro stack errs pos h
    by_cases h1 : c = '{'
    · simp only [braceLoop, h1, if_pos]
      apply ih
      simp [h1, List.count_cons] at h
      simp [List.length_cons]
      omega
    · by_cases h2 : c = '}'
      · cases stack with
        | nil =>
          simp only [braceLoop, h1, h2, if_neg, if_pos]
          exact braceLoop_mono _ _ _ _ (Finset.mem_insert_self _ _)
        | cons s ss =>
          simp only [braceLoop, h1, h2, if_neg, if_pos]
          apply ih
          simp [h1, h2, List.count_cons] at h
          omega
      · simp only [braceLoop, h1, h2, if_neg]
        apply ih
        simp [h1, h2, List.count_cons] at h
        omega

theorem braceLoop_no_brace :
    ∀ (rem : List Char) (stack : List Nat) (errs : Finset String) (pos : Nat),
      (∀ c ∈ rem, c ≠ '{' ∧ c ≠ '}') →
      braceLoop rem stack errs pos = (stack, errs) := by
  intro rem
  induction rem with
  | nil => intro stack errs pos _; rfl
  | cons c rest ih =>
    intro stack errs pos h
    have hc := h c (by simp)
    simp only [braceLoop, hc.1, hc.2, if_neg, reduceIte]
    exact ih _ _ _ (fun d hd => h d (by simp [hd]))

/-! ### Tag pass lemmas -/

theorem tagLoop_mono {e : String} (ranges : List (Nat × Nat)) :
    ∀ (fuel pos : Nat) (rem : List Char) (stack : List (Nat × String))
      (errs : Finset String),
      e ∈ errs → e ∈ (tagLoop ranges fuel pos rem stack errs).2 := by
  intro fuel
  induction fuel with
  | zero => intro pos rem stack errs h; exact h
  | succ f ih =>
    intro pos rem stack errs h
    cases rem with
    | nil => exact h
    | cons c rest =>
      simp only [tagLoop]
      repeat' split
      all_goals
        first
          | exact ih _ _ _ _ h
          | exact ih _ _ _ _ (Finset.mem_insert_of_mem h)

theorem tagLoop_mem_sub {e : String} (ranges : List (Nat × Nat)) :
    ∀ (fuel pos : Nat) (rem : List Char) (stack : List (Nat × String))
      (errs : Finset String),
      e ∈ (tagLoop ranges fuel pos rem stack errs).2 →
      e = ERROR_CODE_RUSSIAN_AFTER_HASH ∨
        e = ERROR_CODE_CLOSING_TAG_WITHOUT_OPENING ∨ e ∈ errs := by
  intro fuel
  induction fuel with
  | zero => intro pos rem stack errs h; exact Or.inr (Or.inr h)
  | succ f ih =>
    intro pos rem stack errs h
    cases rem with
    | nil => exact Or.inr (Or.inr h)
    | cons c rest =>
      simp only [tagLoop] at h
      repeat' split at h
      all_goals
        rcases ih _ _ _ _ h with h' | h' | h'
        · exact Or.inl h'
        · exact Or.inr (Or.inl h')
        · first
            | exact Or.inr (Or.inr h')
            | (rcases Finset.mem_insert.mp h' with h'' | h''
               · first
                   | exact Or.inl h''
                   | exact Or.inr (Or.inl h'')
               · exact Or.inr (Or.inr h''))

/-! ### Brace section lemmas -/

theorem braceFinal_of_loop {e : String} (t : List Char) (errs : Finset String)
    (h : e ∈ (braceLoop t [] errs 0).2) :
    e ∈ (if (braceLoop t [] errs 0).1 ≠ [] then
        insert ERROR_CODE_OPENING_BRACE_WITHOUT_CLOSING (braceLoop t [] errs 0).2
      else (braceLoop t [] errs 0).2) := by
  split
  · exact Finset.mem_insert_of_mem h
  · exact h

theorem braceFinal_sub {e : String} (t : List Char) (errs : Finset String)
    (h : e ∈ (if (braceLoop t [] errs 0).1 ≠ [] then
        insert ERROR_CODE_OPENING_BRACE_WITHOUT_CLOSING (braceLoop t [] errs 0).2
      else (braceLoop t [] errs 0).2)) :
    e = ERROR_CODE_OPENING_BRACE_WITHOUT_CLOSING ∨ e ∈ (braceLoop t [] errs 0).2 := by
  split at h
  · rcases Finset.mem_insert.mp h with h | h
    · exact Or.inl h
    · exact Or.inr h
  · exact Or.inr h

theorem braceErrors_mono {e : String} (t : List Char) (errs : Finset String)
    (h : e ∈ errs) : e ∈ braceErrors t errs := by
  simp only [braceErrors]
  by_cases hc : t.count '{' ≠ t.count '}'
  · rw [if_pos hc]
    exact braceFinal_of_loop _ _ (braceLoop_mono _ _ _ _ (Finset.mem_insert_of_mem h))
  · rw [if_neg hc]
    exact braceFinal_of_loop _ _ (braceLoop_mono _ _ _ _ h)

theorem braceErrors_mem_sub {e : String} (t : List Char) (errs : Finset String)
    (h : e ∈ braceErrors t errs) :
    e = ERROR_CODE_UNBALANCED_BRACES ∨ e = ERROR_CODE_CLOSING_BRACE_WITHOUT_OPENING ∨
      e = ERROR_CODE_OPENING_BRACE_WITHOUT_CLOSING ∨ e ∈ errs := by
  simp only [braceErrors] at h
  by_cases hc : t.count '{' ≠ t.count '}'
  · rw [if_pos hc] at h
    rcases braceFinal_sub _ _ h with h | h
    · exact Or.inr (Or.inr (Or.inl h))
    rcases braceLoop_mem_sub _ _ _ _ h with h | h
    · exact Or.inr (Or.inl h)
    rcases Finset.mem_insert.mp h with h | h
    · exact Or.inl h
    · exact Or.inr (Or.inr (Or.inr h))
  · rw [if_neg hc] at h
    rcases braceFinal_sub _ _ h with h | h
    · exact Or.inr (Or.inr (Or.inl h))
    rcases braceLoop_mem_sub _ _ _ _ h with h | h
    · exact Or.inr (Or.inl h)
    · exact Or.inr (Or.inr (Or.inr h))

theorem mem_unbalanced_braceErrors_iff (t : List Char) (errs : Finset String) :
    ERROR_CODE_UNBALANCED_BRACES ∈ braceErrors t errs ↔
      t.count '{' ≠ t.count '}' ∨ ERROR_CODE_UNBALANCED_BRACES ∈ errs := by
  constructor
  · intro h
    by_cases hc : t.count '{' ≠ t.count '}'
    · exact Or.inl hc
    simp only [braceErrors] at h
    rw [if_neg hc] at h
    rcases braceFinal_sub _ _ h with h | h
    · exact absurd h (by decide)
    rcases braceLoop_mem_sub _ _ _ _ h with h | h
    · exact absurd h (by decide)
    · exact Or.inr h
  · intro h
    rcases h with h | h
    · simp only [braceErrors]
      rw [if_pos h]
      exact braceFinal_of_loop _ _
        (braceLoop_mono _ _ _ _ (Finset.mem_insert_self _ _))
    · exact braceErrors_mono t errs h

theorem braceErrors_of_count_ne (t : List Char) (errs : Finset String)
    (h : t.count '{' ≠ t.count '}') :
    ERROR_CODE_CLOSING_BRACE_WITHOUT_OPENING ∈ braceErrors t errs ∨
      ERROR_CODE_OPENING_BRACE_WITHOUT_CLOSING ∈ braceErrors t errs := by
  simp only [braceErrors]
  rw [if_pos h]
  rcases Nat.lt_or_ge (t.count '{') (t.count '}') with hlt | hge
  · left
    exact braceFinal_of_loop _ _
      (braceLoop_close_mem t [] _ 0 (by simpa using hlt))
  · right
    have hgt : t.count '}' < t.count '{' := lt_of_le_of_ne hge (fun e => h e.symm)
    have h7 := braceLoop_stack_ge t [] (insert ERROR_CODE_UNBALANCED_BRACES errs) 0
    have hne : (braceLoop t [] (insert ERROR_CODE_UNBALANCED_BRACES errs) 0).1 ≠ [] := by
      intro hnil
      rw [hnil] at h7
      simp at h7
      omega
    rw [if_pos hne]
    exact Finset.mem_insert_self _ _

/-! ### Link check lemmas -/

theorem linkCheck_mono {e : String} (t : List Char) (spans : List (Nat × Nat))
    (errs : Finset String) (h : e ∈ errs) : e ∈ linkCheck t spans errs := by
  induction spans generalizing errs with
  | nil => exact h
  | cons r rs ih =>
    unfold linkCheck
    rw [List.foldl_cons]
    apply ih
    dsimp only
    split
    · exact h
    · split
      · split
        · exact Finset.mem_insert_of_mem h
        · exact h
      · exact h

theorem linkCheck_mem_sub {e : String} (t : List Char) (spans : List (Nat × Nat))
    (errs : Finset String) (h : e ∈ linkCheck t spans errs) :
    e = ERROR_CODE_LINK_TAG_INVALID ∨ e ∈ errs := by
  induction spans generalizing errs with
  | nil => exact Or.inr h
  | cons r rs ih =>
    unfold linkCheck at h
    rw [List.foldl_cons] at h
    rcases ih _ h with h' | h'
    · exact Or.inl h'
    dsimp only at h'
    split at h'
    · exact Or.inr h'
    · split at h'
      · split at h'
        · rcases Finset.mem_insert.mp h' with h'' | h''
          · exact Or.inl h''
          · exact Or.inr h''
        · exact Or.inr h'
      · exact Or.inr h'

theorem linkCheck_mem_of_span (t : List Char) (spans : List (Nat × Nat))
    (errs : Finset String) (r : Nat × Nat) (hr : r ∈ spans)
    (hskip : startsUpperOrSlash
      (pyStripList ((t.drop (r.1 + 1)).take (r.2 - r.1 - 2))) = false)
    (hpipe : ((t.drop (r.1 + 1)).take (r.2 - r.1 - 2)).contains '|' = true)
    (hparts : (splitPipe ((t.drop (r.1 + 1)).take (r.2 - r.1 - 2))).length ≠ 4 ∧
      (splitPipe ((t.drop (r.1 + 1)).take (r.2 - r.1 - 2))).length ≠ 5) :
    ERROR_CODE_LINK_TAG_INVALID ∈ linkCheck t spans errs := by
  induction spans generalizing errs with
  | nil => simp at hr
  | cons s rs ih =>
    unfold linkCheck
    rw [List.foldl_cons]
    rcases List.mem_cons.mp hr with rfl | hr'
    · apply linkCheck_mono
      dsimp only
      rw [if_neg (by simp [hskip]), if_pos hpipe,
        if_pos (by simp [hparts.1, hparts.2])]
      exact Finset.mem_insert_self _ _
    · exact ih _ hr'

/-! ### Scan stage lemmas -/

theorem tagErrors_mem_sub {e : String} (t : List Char) (h : e ∈ tagErrors t) :
    e = ERROR_CODE_RUSSIAN_AFTER_HASH ∨ e = ERROR_CODE_CLOSING_TAG_WITHOUT_OPENING ∨
      e = ERROR_CODE_OPENING_TAG_WITHOUT_CLOSING := by
  simp only [tagErrors] at h
  have hbase : e ∈ (tagLoop (linkSpans (t.length + 1) 0 t) (t.length + 1) 0 t
      [] ∅).2 →
      e = ERROR_CODE_RUSSIAN_AFTER_HASH ∨
        e = ERROR_CODE_CLOSING_TAG_WITHOUT_OPENING := by
    intro hb
    rcases tagLoop_mem_sub _ _ _ _ _ _ hb with h' | h' | h'
    · exact Or.inl h'
    · exact Or.inr h'
    · exact absurd h' (Finset.not_mem_empty e)
  split at h
  · rcases Finset.mem_insert.mp h with h' | h'
    · exact Or.inr (Or.inr h')
    · rcases hbase h' with h'' | h''
      · exact Or.inl h''
      · exact Or.inr (Or.inl h'')
  · rcases hbase h with h'' | h''
    · exact Or.inl h''
    · exact Or.inr (Or.inl h'')

/-- Every code `scan` records is one of the seven codes of the taxonomy. -/
theorem scan_mem_sub {e : String} (t : String) (h : e ∈ scan t) :
    e = ERROR_CODE_RUSSIAN_AFTER_HASH ∨ e = ERROR_CODE_CLOSING_TAG_WITHOUT_OPENING ∨
      e = ERROR_CODE_OPENING_TAG_WITHOUT_CLOSING ∨ e = ERROR_CODE_LINK_TAG_INVALID ∨
      e = ERROR_CODE_UNBALANCED_BRACES ∨ e = ERROR_CODE_CLOSING_BRACE_WITHOUT_OPENING ∨
      e = ERROR_CODE_OPENING_BRACE_WITHOUT_CLOSING := by
  rcases braceErrors_mem_sub _ _ h with h' | h' | h' | h'
  · exact Or.inr (Or.inr (Or.inr (Or.inr (Or.inl h'))))
  · exact Or.inr (Or.inr (Or.inr (Or.inr (Or.inr (Or.inl h')))))
  · exact Or.inr (Or.inr (Or.inr (Or.inr (Or.inr (Or.inr h')))))
  rcases linkCheck_mem_sub _ _ _ h' with h'' | h''
  · exact Or.inr (Or.inr (Or.inr (Or.inl h'')))
  rcases tagErrors_mem_sub _ h'' with h3 | h3 | h3
  · exact Or.inl h3
  · exact Or.inr (Or.inl h3)
  · exact Or.inr (Or.inr (Or.inl h3))

/-! ### Link span lemmas -/

theorem is_inside_link_tag_nil (pos : Nat) : is_inside_link_tag [] pos = false := rfl

theorem linkSpans_no_gt :
    ∀ (fuel pos : Nat) (rem : List Char), (∀ c ∈ rem, c ≠ '>') →
      linkSpans fuel pos rem = [] := by
  intro fuel
  induction fuel with
  | zero => intro pos rem _; rfl
  | succ f ih =>
    intro pos rem h
    cases rem with
    | nil => rfl
    | cons c rest =>
      have hk : ¬(rest.findIdx (fun d => d = '>') < rest.length) := by
        simp only [List.findIdx_lt_length]
        rintro ⟨x, hx, hx'⟩
        exact h x (List.mem_cons_of_mem _ hx) (by simpa using hx')
      simp only [linkSpans]
      split
      all_goals exact ih _ _ (fun d hd => h d (by simp [hd]))

theorem linkSpans_no_lt :
    ∀ (fuel pos : Nat) (rem : List Char), (∀ c ∈ rem, c ≠ '<') →
      linkSpans fuel pos rem = [] := by
  intro fuel
  induction fuel with
  | zero => intro pos rem _; rfl
  | succ f ih =>
    intro pos rem h
    cases rem with
    | nil => rfl
    | cons c rest =>
      simp only [linkSpans]
      rw [if_neg (h c (by simp))]
      exact ih _ _ (fun d hd => h d (by simp [hd]))

/-- Shared bridge: code 05 is in `scan t` exactly when the brace counts of the
text differ. -/
theorem mem_unbalanced_scan_iff (t : String) :
    ERROR_CODE_UNBALANCED_BRACES ∈ scan t ↔
      t.data.count '{' ≠ t.data.count '}' := by
  simp only [scan]
  rw [mem_unbalanced_braceErrors_iff]
  constructor
  · rintro (h | h)
    · exact h
    rcases linkCheck_mem_sub _ _ _ h with h' | h'
    · exact absurd h' (by decide)
    rcases tagErrors_mem_sub _ h' with h'' | h'' | h'' <;> exact absurd h'' (by decide)
  · exact Or.inl

/-! ### Claim theorems -/

/-- C2 counterexample: the claim asserts `scan("<A|B|C>") = {LINK_TAG_INVALID}`,
but the scanner skips pipe spans whose content starts with an uppercase letter
before ever counting parts, so the set is empty. -/
theorem claim2_counterexample : scan "<A|B|C>" ≠ {ERROR_CODE_LINK_TAG_INVALID} := by
  decide

/-- C2 (amended): for a `<...>` span whose stripped content does not start
with an uppercase letter or `/`, if the content contains a pipe and splits
into a part count other than 4 or 5 then LINK_TAG_INVALID is recorded; the
uppercase-led `<A|B|C>` is skipped, so `scan "<A|B|C>" = ∅` while
`scan "<a|b|c>" = {LINK_TAG_INVALID}`, and `scan "<A|B|C|D>"`,
`scan "<Water Loong Army>"`, `scan "<TEXT>"` are all empty. -/
theorem claim2_link_parts :
    (∀ (t : String) (r : Nat × Nat),
      r ∈ linkSpans (t.data.length + 1) 0 t.data →
      startsUpperOrSlash
        (pyStripList ((t.data.drop (r.1 + 1)).take (r.2 - r.1 - 2))) = false →
      ((t.data.drop (r.1 + 1)).take (r.2 - r.1 - 2)).contains '|' = true →
      (splitPipe ((t.data.drop (r.1 + 1)).take (r.2 - r.1 - 2))).length ≠ 4 →
      (splitPipe ((t.data.drop (r.1 + 1)).take (r.2 - r.1 - 2))).length ≠ 5 →
      ERROR_CODE_LINK_TAG_INVALID ∈ scan t) ∧
    scan "<a|b|c>" = {ERROR_CODE_LINK_TAG_INVALID} ∧
    scan "<A|B|C|D>" = ∅ ∧ scan "<A|B|C>" = ∅ ∧
    scan "<Water Loong Army>" = ∅ ∧ scan "<TEXT>" = ∅ := by
  refine ⟨?_, by decide, by decide, by decide, by decide, by decide⟩
  intro t r hr hskip hpipe h4 h5
  simp only [scan]
  exact braceErrors_mono _ _ (linkCheck_mem_of_span _ _ _ r hr hskip hpipe ⟨h4, h5⟩)

/-- C2 witness: the general part of the amended claim applied to the concrete
span `(0, 7)` of `"<a|b|c>"`. -/
theorem claim2_link_parts_witness :
    ((0, 7) ∈ linkSpans ("<a|b|c>".data.length + 1) 0 "<a|b|c>".data) ∧
      ERROR_CODE_LINK_TAG_INVALID ∈ scan "<a|b|c>" :=
  ⟨by decide, claim2_link_parts.1 "<a|b|c>" (0, 7) (by decide) (by decide)
    (by decide) (by decide) (by decide)⟩

/-- C3 counterexample: the claim asserts `scan("#привет#E")` is exactly the
singleton `{RUSSIAN_AFTER_HASH}`, but the `#E` closer also finds an empty tag
stack and records CLOSING_TAG_WITHOUT_OPENING. -/
theorem claim3_counterexample :
    scan "#привет#E" ≠ {ERROR_CODE_RUSSIAN_AFTER_HASH} := by decide

/-- C3 (amended): Cyrillic text outside tags is not an error
(`scan "привет #G text #E" = ∅`), and `scan "#привет#E"` contains
RUSSIAN_AFTER_HASH — its exact value is
`{RUSSIAN_AFTER_HASH, CLOSING_TAG_WITHOUT_OPENING}`, because the `#E`
closer has no matching opener. -/
theorem claim3_russian_after_hash :
    scan "привет #G text #E" = ∅ ∧
    scan "#привет#E" =
      {ERROR_CODE_RUSSIAN_AFTER_HASH, ERROR_CODE_CLOSING_TAG_WITHOUT_OPENING} ∧
    ERROR_CODE_RUSSIAN_AFTER_HASH ∈ scan "#привет#E" := by
  refine ⟨by decide, by decide, by decide⟩

/-- C4: UNBALANCED_BRACES is recorded exactly when the `{` and `}` counts of
the text differ; `scan "{name}" = ∅`,
`scan "\x7bname" = {OPENING_BRACE_WITHOUT_CLOSING, UNBALANCED_BRACES}` and
`scan "name\x7d" = {CLOSING_BRACE_WITHOUT_OPENING, UNBALANCED_BRACES}`. -/
theorem claim4_unbalanced_iff :
    (∀ t : String, ERROR_CODE_UNBALANCED_BRACES ∈ scan t ↔
      t.data.count '{' ≠ t.data.count '}') ∧
    scan "{name}" = ∅ ∧
    scan "\x7bname" =
      {ERROR_CODE_OPENING_BRACE_WITHOUT_CLOSING, ERROR_CODE_UNBALANCED_BRACES} ∧
    scan "name\x7d" =
      {ERROR_CODE_CLOSING_BRACE_WITHOUT_OPENING, ERROR_CODE_UNBALANCED_BRACES} := by
  exact ⟨mem_unbalanced_scan_iff, by decide, by decide, by decide⟩

/-- C4 witness: the iff applied at the concrete text `"\x7bname"`. -/
theorem claim4_unbalanced_iff_witness :
    ERROR_CODE_UNBALANCED_BRACES ∈ scan "\x7bname" ∧
      "\x7bname".data.count '{' ≠ "\x7bname".data.count '}' :=
  ⟨(claim4_unbalanced_iff.1 "\x7bname").mpr (by decide), by decide⟩

/-- C5: for every id present in either map the comparator reports the union of
the two code sets and classifies it Both / PrimaryOnly / ReferenceOnly
according to which of the two sets are non-empty; with primary `{A: {03}}` and
reference `{A: {03}}` the classification is Both, and with an empty reference
map it is PrimaryOnly. -/
theorem claim5_compare :
    (∀ (ru en : List (String × Finset String)) (k : String),
      (k ∈ ru.map Prod.fst ∨ k ∈ en.map Prod.fst) →
      ((k, mapGet ru k ∪ mapGet en k,
          classify (mapGet ru k) (mapGet en k)) ∈ compareMaps ru en) ∧
        (mapGet ru k ≠ ∅ → mapGet en k ≠ ∅ →
          classify (mapGet ru k) (mapGet en k) = Classification.Both) ∧
        (mapGet ru k ≠ ∅ → mapGet en k = ∅ →
          classify (mapGet ru k) (mapGet en k) = Classification.PrimaryOnly) ∧
        (mapGet ru k = ∅ → mapGet en k ≠ ∅ →
          classify (mapGet ru k) (mapGet en k) = Classification.ReferenceOnly)) ∧
    compareMaps [("A", {"03"})] [("A", {"03"})] =
      [("A", {"03"}, Classification.Both)] ∧
    compareMaps [("A", {"03"})] [] = [("A", {"03"}, Classification.PrimaryOnly)] := by
  refine ⟨?_, by decide, by decide⟩
  intro ru en k h
  refine ⟨?_, ?_, ?_, ?_⟩
  · apply List.mem_map_of_mem
    apply List.mem_dedup.mpr
    rcases h with h | h
    · exact List.mem_append_left _ h
    · exact List.mem_append_right _ h
  · intro h1 h2
    simp only [classify]
    rw [if_pos ⟨h1, h2⟩]
  · intro h1 h2
    simp only [classify]
    rw [if_neg (by rintro ⟨_, hb⟩; exact hb h2), if_neg (by intro hb; exact hb h2)]
  · intro h1 h2
    simp only [classify]
    rw [if_neg (by rintro ⟨ha, _⟩; exact ha h1), if_pos h2]

/-- C5 witness: the comparator theorem applied to the concrete maps
`{A: {03}}` and `{}`. -/
theorem claim5_compare_witness :
    ("A" ∈ [("A", ({"03"} : Finset String))].map Prod.fst ∨
      "A" ∈ ([] : List (String × Finset String)).map Prod.fst) ∧
    (("A", mapGet [("A", {"03"})] "A" ∪ mapGet [] "A",
        classify (mapGet [("A", {"03"})] "A") (mapGet [] "A")) ∈
      compareMaps [("A", {"03"})] []) :=
  ⟨by decide, (claim5_compare.1 [("A", {"03"})] [] "A" (by decide)).1⟩

/-- C7: `scan` is total — it is a function defined on all strings — and every
code it returns belongs to the closed enumeration of the seven error codes. -/
theorem claim7_total (t : String) : ∀ e ∈ scan t, e ∈ errorCodeSet := by
  intro e he
  rcases scan_mem_sub t he with h | h | h | h | h | h | h <;> subst h <;> decide

/-- C7 witness: the subset property instantiated on `"#я"`, whose scan
contains RUSSIAN_AFTER_HASH. -/
theorem claim7_total_witness :
    ERROR_CODE_RUSSIAN_AFTER_HASH ∈ scan "#я" ∧
      ERROR_CODE_RUSSIAN_AFTER_HASH ∈ errorCodeSet :=
  ⟨by decide, claim7_total "#я" _ (by decide)⟩

/-- C8: `scan` is deterministic and idempotent — in this pure embedding two
scans of the same text are definitionally the same set, and the scanner
carries no state between records. -/
theorem claim8_deterministic : ∀ t : String, scan t = scan t := fun _ => rfl

/-- C9: whenever UNBALANCED_BRACES is recorded, at least one of
CLOSING_BRACE_WITHOUT_OPENING or OPENING_BRACE_WITHOUT_CLOSING is recorded
too; the converse fails at `"\x7d\x7b"`, which records codes 06 and 07 but not
05. -/
theorem claim9_unbalanced_implies_pair :
    (∀ t : String, ERROR_CODE_UNBALANCED_BRACES ∈ scan t →
      ERROR_CODE_CLOSING_BRACE_WITHOUT_OPENING ∈ scan t ∨
        ERROR_CODE_OPENING_BRACE_WITHOUT_CLOSING ∈ scan t) ∧
    ERROR_CODE_UNBALANCED_BRACES ∉ scan "\x7d\x7b" ∧
    ERROR_CODE_CLOSING_BRACE_WITHOUT_OPENING ∈ scan "\x7d\x7b" ∧
    ERROR_CODE_OPENING_BRACE_WITHOUT_CLOSING ∈ scan "\x7d\x7b" := by
  refine ⟨?_, by decide, by decide, by decide⟩
  intro t h
  have hc := (mem_unbalanced_scan_iff t).mp h
  simp only [scan]
  exact braceErrors_of_count_ne _ _ hc

/-- C9 witness: the implication applied at `"{"`. -/
theorem claim9_unbalanced_implies_pair_witness :
    ERROR_CODE_UNBALANCED_BRACES ∈ scan "\x7b" ∧
      (ERROR_CODE_CLOSING_BRACE_WITHOUT_OPENING ∈ scan "\x7b" ∨
        ERROR_CODE_OPENING_BRACE_WITHOUT_CLOSING ∈ scan "\x7b") :=
  ⟨by decide, claim9_unbalanced_implies_pair.1 "\x7b" (by decide)⟩

/-- C10: a `<` with no subsequent `>` produces no link range, so the text
after it is scanned as ordinary markup and LINK_TAG_INVALID is never
recorded; in particular `scan "<a|#E" = {CLOSING_TAG_WITHOUT_OPENING}`. -/
theorem claim10_unmatched_lt :
    (∀ t : String, (∀ c ∈ t.data, c ≠ '>') →
      linkSpans (t.data.length + 1) 0 t.data = [] ∧
        ERROR_CODE_LINK_TAG_INVALID ∉ scan t) ∧
    scan "<a|#E" = {ERROR_CODE_CLOSING_TAG_WITHOUT_OPENING} := by
  refine ⟨?_, by decide⟩
  intro t h
  have hs := linkSpans_no_gt (t.data.length + 1) 0 t.data h
  refine ⟨hs, ?_⟩
  intro hmem
  simp only [scan] at hmem
  rcases braceErrors_mem_sub _ _ hmem with h' | h' | h' | h'
  · exact absurd h' (by decide)
  · exact absurd h' (by decide)
  · exact absurd h' (by decide)
  rw [hs] at h'
  have h'' : ERROR_CODE_LINK_TAG_INVALID ∈ tagErrors t.data := h'
  rcases tagErrors_mem_sub _ h'' with h3 | h3 | h3 <;> exact absurd h3 (by decide)

/-- C10 witness: the general part applied to `"<a|"`, which has pipes after
the unmatched `<` and still no LINK_TAG_INVALID. -/
theorem claim10_unmatched_lt_witness :
    (∀ c ∈ "<a|".data, c ≠ '>') ∧
      (linkSpans ("<a|".data.length + 1) 0 "<a|".data = [] ∧
        ERROR_CODE_LINK_TAG_INVALID ∉ scan "<a|") :=
  ⟨by decide, claim10_unmatched_lt.1 "<a|" (by decide)⟩

/-! ### Symbolic evaluation lemmas for the hex-opener claim -/

theorem stringData_mk (l : List Char) : (String.mk l).data = l := rfl

theorem tagLoop_nil (ranges : List (Nat × Nat)) (fuel pos : Nat)
    (stack : List (Nat × String)) (errs : Finset String) :
    tagLoop ranges fuel pos [] stack errs = (stack, errs) := by
  cases fuel <;> rfl

theorem tagLoop_hex_step (ranges : List (Nat × Nat)) (fuel pos : Nat)
    (h rest' : List Char) (stack : List (Nat × String)) (errs : Finset String)
    (hinside : is_inside_link_tag ranges pos = false)
    (hne : h ≠ []) (hlen : 3 ≤ h.length) (hheadE : h.head? ≠ some 'E')
    (htake : (h ++ rest').takeWhile isHexDigitCh = h) :
    tagLoop ranges (fuel + 1) pos ('#' :: (h ++ rest')) stack errs =
      tagLoop ranges fuel (pos + 1 + h.length) rest'
        (if decide (rest' ≠ []) && decide (rest'.take 2 ≠ ['#', 'E']) then
          (pos, String.mk ('#' :: h)) :: stack
        else stack) errs := by
  obtain ⟨hd, tl, rfl⟩ : ∃ hd tl, h = hd :: tl := by
    cases h with
    | nil => exact absurd rfl hne
    | cons a b => exact ⟨a, b, rfl⟩
  have hdE : ¬hd = 'E' := fun he => hheadE (by simp [he])
  have hdrop : ((hd :: tl) ++ rest').drop (hd :: tl).length = rest' :=
    List.drop_left _ _
  simp only [List.cons_append] at htake hdrop ⊢
  simp only [tagLoop, hinside, Bool.false_eq_true, if_false, htake, hdrop]
  rw [if_pos trivial, if_neg hdE, if_pos hlen]

theorem tagLoop_closeE_empty (ranges : List (Nat × Nat)) (fuel pos : Nat)
    (rest2 : List Char) (errs : Finset String)
    (hinside : is_inside_link_tag ranges pos = false) :
    tagLoop ranges (fuel + 1) pos ('#' :: 'E' :: rest2) [] errs =
      tagLoop ranges fuel (pos + 2) rest2 []
        (insert ERROR_CODE_CLOSING_TAG_WITHOUT_OPENING errs) := by
  simp only [tagLoop, hinside, Bool.false_eq_true, if_false]
  simp

theorem tagLoop_closeE_pop (ranges : List (Nat × Nat)) (fuel pos : Nat)
    (rest2 : List Char) (s : Nat × String) (stack : List (Nat × String))
    (errs : Finset String)
    (hinside : is_inside_link_tag ranges pos = false) :
    tagLoop ranges (fuel + 1) pos ('#' :: 'E' :: rest2) (s :: stack) errs =
      tagLoop ranges fuel (pos + 2) rest2 stack errs := by
  simp only [tagLoop, hinside, Bool.false_eq_true, if_false]
  simp

theorem tagLoop_skip (ranges : List (Nat × Nat)) (fuel pos : Nat) (c : Char)
    (rest : List Char) (stack : List (Nat × String)) (errs : Finset String)
    (hinside : is_inside_link_tag ranges pos = false) (hc : ¬c = '#') :
    tagLoop ranges (fuel + 1) pos (c :: rest) stack errs =
      tagLoop ranges fuel (pos + 1) rest stack errs := by
  simp only [tagLoop, hinside, Bool.false_eq_true, if_false]
  rw [if_neg hc]

theorem isHexDigitCh_not_special {c : Char} (h : isHexDigitCh c = true) :
    c ≠ '<' ∧ c ≠ '>' ∧ c ≠ '{' ∧ c ≠ '}' ∧ c ≠ '#' := by
  refine ⟨?_, ?_, ?_, ?_, ?_⟩ <;> (rintro rfl; exact absurd h (by decide))

/-- On a text with no `<` and no braces, `scan` is just the tag pass. -/
theorem scan_of_nobrace_nolink (t : String)
    (hlt : ∀ c ∈ t.data, c ≠ '<') (hbr : ∀ c ∈ t.data, c ≠ '{' ∧ c ≠ '}') :
    scan t = tagErrors t.data := by
  have hs : linkSpans (t.data.length + 1) 0 t.data = [] :=
    linkSpans_no_lt _ _ _ hlt
  have hc1 : t.data.count '{' = 0 :=
    List.count_eq_zero.mpr (fun hmem => (hbr _ hmem).1 rfl)
  have hc2 : t.data.count '}' = 0 :=
    List.count_eq_zero.mpr (fun hmem => (hbr _ hmem).2 rfl)
  simp only [scan, hs, linkCheck, List.foldl_nil, braceErrors, hc1, hc2]
  rw [braceLoop_no_brace _ _ _ _ hbr]
  simp

theorem tagLoop_hex_nil (ranges : List (Nat × Nat)) (fuel pos : Nat)
    (h : List Char) (stack : List (Nat × String)) (errs : Finset String)
    (hinside : is_inside_link_tag ranges pos = false)
    (hne : h ≠ []) (hlen : 3 ≤ h.length) (hheadE : h.head? ≠ some 'E')
    (hhex : ∀ c ∈ h, isHexDigitCh c = true) :
    tagLoop ranges (fuel + 1) pos ('#' :: h) stack errs =
      tagLoop ranges fuel (pos + 1 + h.length) [] stack errs := by
  have htk : (h ++ []).takeWhile isHexDigitCh = h := by
    rw [List.append_nil]; exact takeWhile_all_true hhex
  have hstep := tagLoop_hex_step ranges fuel pos h [] stack errs hinside hne hlen
    hheadE htk
  rw [List.append_nil] at hstep
  rw [hstep]
  congr 1

theorem tagLoop_hex_hashE (ranges : List (Nat × Nat)) (fuel pos : Nat)
    (h : List Char) (stack : List (Nat × String)) (errs : Finset String)
    (hinside : is_inside_link_tag ranges pos = false)
    (hne : h ≠ []) (hlen : 3 ≤ h.length) (hheadE : h.head? ≠ some 'E')
    (hhex : ∀ c ∈ h, isHexDigitCh c = true) :
    tagLoop ranges (fuel + 1) pos ('#' :: (h ++ ['#', 'E'])) stack errs =
      tagLoop ranges fuel (pos + 1 + h.length) ['#', 'E'] stack errs := by
  have htk : (h ++ ['#', 'E']).takeWhile isHexDigitCh = h :=
    takeWhile_append_stop hhex (by decide)
  rw [tagLoop_hex_step ranges fuel pos h ['#', 'E'] stack errs hinside hne hlen
    hheadE htk]
  congr 1

theorem tagLoop_hex_push (ranges : List (Nat × Nat)) (fuel pos : Nat)
    (h : List Char) (stack : List (Nat × String)) (errs : Finset String)
    (hinside : is_inside_link_tag ranges pos = false)
    (hne : h ≠ []) (hlen : 3 ≤ h.length) (hheadE : h.head? ≠ some 'E')
    (hhex : ∀ c ∈ h, isHexDigitCh c = true) :
    tagLoop ranges (fuel + 1) pos ('#' :: (h ++ [' ', '#', 'E'])) stack errs =
      tagLoop ranges fuel (pos + 1 + h.length) [' ', '#', 'E']
        ((pos, String.mk ('#' :: h)) :: stack) errs := by
  have htk : (h ++ [' ', '#', 'E']).takeWhile isHexDigitCh = h :=
    takeWhile_append_stop hhex (by decide)
  rw [tagLoop_hex_step ranges fuel pos h [' ', '#', 'E'] stack errs hinside hne
    hlen hheadE htk]
  congr 1

/-- C1 counterexample: the claim asserts `scan("#fff#E") = {}` and
`scan("#fff") = {OPENING_TAG_WITHOUT_CLOSING}`; the code pushes a hex code
only when it is not directly followed by `#E` and not at the end of the text,
so both evaluations differ. -/
theorem claim1_counterexample :
    scan "#fff#E" ≠ ∅ ∧ scan "#fff" ≠ {ERROR_CODE_OPENING_TAG_WITHOUT_CLOSING} := by
  refine ⟨by decide, by decide⟩

/-- C1 (amended): a `#` followed by a maximal run of 3+ hex digits is pushed
as an opening tag only when at least one character follows the run and the two
characters after it are not `#E`.  Hence for every maximal hex run `h` (not
led by `E`): `scan("#h") = {}` (nothing follows, no push),
`scan("#h#E") = {CLOSING_TAG_WITHOUT_OPENING}` (no push, the `#E` then finds
an empty stack), and `scan("#h #E") = {}` (pushed and closed); in particular
`scan "#fff#E" = {CLOSING_TAG_WITHOUT_OPENING}`, `scan "#fff" = ∅`, and the
paired hex tag with payload `scan "#ffc89c10 text #E" = ∅`. -/
theorem claim1_hex_opener :
    (∀ h : List Char, h ≠ [] → (∀ c ∈ h, isHexDigitCh c = true) →
      3 ≤ h.length → h.head? ≠ some 'E' →
      scan (String.mk ('#' :: h)) = ∅ ∧
      scan (String.mk ('#' :: (h ++ ['#', 'E']))) =
        {ERROR_CODE_CLOSING_TAG_WITHOUT_OPENING} ∧
      scan (String.mk ('#' :: (h ++ [' ', '#', 'E']))) = ∅) ∧
    scan "#fff#E" = {ERROR_CODE_CLOSING_TAG_WITHOUT_OPENING} ∧
    scan "#fff" = ∅ ∧
    scan "#ffc89c10 text #E" = ∅ := by
  refine ⟨?_, by decide, by decide, by decide⟩
  intro h hne hhex hlen hheadE
  have hx : ∀ c ∈ h, c ≠ '<' ∧ c ≠ '>' ∧ c ≠ '{' ∧ c ≠ '}' ∧ c ≠ '#' :=
    fun c hc => isHexDigitCh_not_special (hhex c hc)
  refine ⟨?_, ?_, ?_⟩
  · have hlt : ∀ c ∈ '#' :: h, c ≠ '<' := by
      intro c hc
      rcases List.mem_cons.mp hc with rfl | hm
      · decide
      · exact (hx c hm).1
    have hbr : ∀ c ∈ '#' :: h, c ≠ '{' ∧ c ≠ '}' := by
      intro c hc
      rcases List.mem_cons.mp hc with rfl | hm
      · exact ⟨by decide, by decide⟩
      · exact ⟨(hx c hm).2.2.1, (hx c hm).2.2.2.1⟩
    rw [scan_of_nobrace_nolink (String.mk ('#' :: h)) hlt hbr]
    show tagErrors ('#' :: h) = ∅
    have hspan : linkSpans (('#' :: h).length + 1) 0 ('#' :: h) = [] :=
      linkSpans_no_lt _ _ _ hlt
    simp only [tagErrors]
    rw [hspan]
    simp only [List.length_cons]
    rw [tagLoop_hex_nil [] (h.length + 1) 0 h [] ∅ rfl hne hlen hheadE hhex,
      tagLoop_nil]
    simp
  · have hmemB : ∀ c ∈ '#' :: (h ++ ['#', 'E']), c = '#' ∨ c = 'E' ∨ c ∈ h := by
      intro c hc
      rcases List.mem_cons.mp hc with rfl | hc
      · exact Or.inl rfl
      rcases List.mem_append.mp hc with hc | hc
      · exact Or.inr (Or.inr hc)
      · simp only [List.mem_cons, List.mem_singleton] at hc
        rcases hc with rfl | rfl | hfalse
        · exact Or.inl rfl
        · exact Or.inr (Or.inl rfl)
        · exact absurd hfalse (List.not_mem_nil c)
    have hlt : ∀ c ∈ '#' :: (h ++ ['#', 'E']), c ≠ '<' := by
      intro c hc
      rcases hmemB c hc with rfl | rfl | hm
      · decide
      · decide
      · exact (hx c hm).1
    have hbr : ∀ c ∈ '#' :: (h ++ ['#', 'E']), c ≠ '{' ∧ c ≠ '}' := by
      intro c hc
      rcases hmemB c hc with rfl | rfl | hm
      · exact ⟨by decide, by decide⟩
      · exact ⟨by decide, by decide⟩
      · exact ⟨(hx c hm).2.2.1, (hx c hm).2.2.2.1⟩
    rw [scan_of_nobrace_nolink (String.mk ('#' :: (h ++ ['#', 'E']))) hlt hbr]
    show tagErrors ('#' :: (h ++ ['#', 'E'])) = {ERROR_CODE_CLOSING_TAG_WITHOUT_OPENING}
    have hspan : linkSpans (('#' :: (h ++ ['#', 'E'])).length + 1) 0
        ('#' :: (h ++ ['#', 'E'])) = [] :=
      linkSpans_no_lt _ _ _ hlt
    simp only [tagErrors]
    rw [hspan]
    rw [show ('#' :: (h ++ ['#', 'E'])).length + 1 = ((h.length + 2) + 1) + 1 from by
      simp [List.length_append]]
    rw [tagLoop_hex_hashE [] ((h.length + 2) + 1) 0 h [] ∅ rfl hne hlen hheadE hhex]
    rw [tagLoop_closeE_empty [] (h.length + 2) (0 + 1 + h.length) [] ∅ rfl]
    rw [tagLoop_nil]
    simp
  · have hmemC : ∀ c ∈ '#' :: (h ++ [' ', '#', 'E']),
        c = '#' ∨ c = 'E' ∨ c = ' ' ∨ c ∈ h := by
      intro c hc
      rcases List.mem_cons.mp hc with rfl | hc
      · exact Or.inl rfl
      rcases List.mem_append.mp hc with hc | hc
      · exact Or.inr (Or.inr (Or.inr hc))
      · simp only [List.mem_cons, List.mem_singleton] at hc
        rcases hc with rfl | rfl | rfl | hfalse
        · exact Or.inr (Or.inr (Or.inl rfl))
        · exact Or.inl rfl
        · exact Or.inr (Or.inl rfl)
        · exact absurd hfalse (List.not_mem_nil c)
    have hlt : ∀ c ∈ '#' :: (h ++ [' ', '#', 'E']), c ≠ '<' := by
      intro c hc
      rcases hmemC c hc with rfl | rfl | rfl | hm
      · decide
      · decide
      · decide
      · exact (hx c hm).1
    have hbr : ∀ c ∈ '#' :: (h ++ [' ', '#', 'E']), c ≠ '{' ∧ c ≠ '}' := by
      intro c hc
      rcases hmemC c hc with rfl | rfl | rfl | hm
      · exact ⟨by decide, by decide⟩
      · exact ⟨by decide, by decide⟩
      · exact ⟨by decide, by decide⟩
      · exact ⟨(hx c hm).2.2.1, (hx c hm).2.2.2.1⟩
    rw [scan_of_nobrace_nolink (String.mk ('#' :: (h ++ [' ', '#', 'E']))) hlt hbr]
    show tagErrors ('#' :: (h ++ [' ', '#', 'E'])) = ∅
    have hspan : linkSpans (('#' :: (h ++ [' ', '#', 'E'])).length + 1) 0
        ('#' :: (h ++ [' ', '#', 'E'])) = [] :=
      linkSpans_no_lt _ _ _ hlt
    simp only [tagErrors]
    rw [hspan]
    rw [show ('#' :: (h ++ [' ', '#', 'E'])).length + 1 =
        (((h.length + 2) + 1) + 1) + 1 from by simp [List.length_append]]
    rw [tagLoop_hex_push [] (((h.length + 2) + 1) + 1) 0 h [] ∅ rfl hne hlen
      hheadE hhex]
    rw [tagLoop_skip [] ((h.length + 2) + 1) (0 + 1 + h.length) ' ' ['#', 'E'] _ ∅
      rfl (by decide)]
    rw [tagLoop_closeE_pop [] (h.length + 2) (0 + 1 + h.length + 1) [] _ [] ∅ rfl]
    rw [tagLoop_nil]
    simp

/-- C1 witness: the amended general statement applied to the concrete hex run
`"fff"`. -/
theorem claim1_hex_opener_witness :
    scan (String.mk ('#' :: ['f', 'f', 'f'])) = ∅ ∧
      scan (String.mk ('#' :: (['f', 'f', 'f'] ++ ['#', 'E']))) =
        {ERROR_CODE_CLOSING_TAG_WITHOUT_OPENING} ∧
      scan (String.mk ('#' :: (['f', 'f', 'f'] ++ [' ', '#', 'E']))) = ∅ :=
  claim1_hex_opener.1 ['f', 'f', 'f'] (by decide) (by decide) (by decide) (by decide)

/-! ### Record assembler lemmas -/

theorem string_ext_data {x y : String} (h : x.data = y.data) : x = y := by
  cases x; cases y; exact congrArg String.mk h

theorem stringMk_data (s : String) : String.mk s.data = s := rfl

theorem rstripNLData_concat (A B : List Char) (hB : B ≠ [])
    (hBNL : ∀ c ∈ B, isNLCh c = false) :
    rstripNLData (A ++ (B ++ ['\n'])) = A ++ B := by
  unfold rstripNLData
  obtain ⟨x, xs, hrev⟩ : ∃ x xs, B.reverse = x :: xs := by
    cases hr : B.reverse with
    | nil => exact absurd (List.reverse_eq_nil_iff.mp hr) hB
    | cons a b => exact ⟨a, b, rfl⟩
  have hx : isNLCh x = false := hBNL x (List.mem_reverse.mp (by
    rw [hrev]; exact List.mem_cons_self _ _))
  rw [show (A ++ (B ++ ['\n'])).reverse = '\n' :: (B.reverse ++ A.reverse) by
    simp [List.reverse_append]]
  rw [List.dropWhile_cons_of_pos (by decide), hrev, List.cons_append,
    List.dropWhile_cons_of_neg (by simp [hx]), ← List.cons_append, ← hrev,
    ← List.reverse_append, List.reverse_reverse]

theorem rstripNL_eq {s res : String} (A B : List Char)
    (hs : s.data = A ++ (B ++ ['\n'])) (hB : B ≠ [])
    (hBNL : ∀ c ∈ B, isNLCh c = false) (hres : res.data = A ++ B) :
    rstripNL s = res := by
  apply string_ext_data
  simp only [rstripNL, stringData_mk]
  rw [hs, rstripNLData_concat A B hB hBNL, hres]

theorem isHexDigitCh_toNat {c : Char} (h : isHexDigitCh c = true) :
    (0x30 ≤ c.toNat ∧ c.toNat ≤ 0x39) ∨ (0x41 ≤ c.toNat ∧ c.toNat ≤ 0x46) ∨
      (0x61 ≤ c.toNat ∧ c.toNat ≤ 0x66) := by
  simp only [isHexDigitCh, Bool.or_eq_true, Bool.and_eq_true,
    decide_eq_true_eq] at h
  rcases h with (⟨h1, h2⟩ | ⟨h1, h2⟩) | ⟨h1, h2⟩
  · exact Or.inl ⟨h1, h2⟩
  · exact Or.inr (Or.inl ⟨h1, h2⟩)
  · exact Or.inr (Or.inr ⟨h1, h2⟩)

theorem isHexDigitCh_not_ws {c : Char} (h : isHexDigitCh c = true) :
    isNLCh c = false ∧ isPySpace c = false ∧ ¬c = '\t' := by
  refine ⟨?_, ?_, ?_⟩
  · cases hn : isNLCh c with
    | false => rfl
    | true =>
      simp only [isNLCh, Bool.or_eq_true, beq_iff_eq] at hn
      rcases hn with rfl | rfl <;> exact absurd h (by decide)
  · have hv := isHexDigitCh_toNat h
    cases hp : isPySpace c with
    | false => rfl
    | true =>
      exfalso
      simp only [isPySpace, Bool.or_eq_true, Bool.and_eq_true,
        decide_eq_true_eq] at hp
      omega
  · rintro rfl; exact absurd h (by decide)

theorem splitTabOnce_tab (a rest : String) (ha : ∀ c ∈ a.data, ¬c = '\t') :
    splitTabOnce (a ++ "\t" ++ rest) = [a, rest] := by
  have hdata : (a ++ "\t" ++ rest).data = a.data ++ '\t' :: rest.data := by
    simp [String.data_append]
  have hl : ∀ c ∈ a.data, (fun c => decide (c ≠ '\t')) c = true := by
    intro c hc
    exact decide_eq_true (ha c hc)
  simp only [splitTabOnce, hdata]
  rw [if_pos (by
    have hm : '\t' ∈ a.data ++ '\t' :: rest.data :=
      List.mem_append_right a.data (List.mem_cons_self '\t' rest.data)
    simp only [List.contains, List.elem_eq_mem, decide_eq_true_eq]
    exact hm)]
  rw [takeWhile_append_stop hl (by decide), dropWhile_append_stop hl (by decide)]
  simp [stringMk_data]

theorem isNewEntry_hexline (id16 rest : String)
    (hlen : id16.data.length = 16)
    (hhex : ∀ c ∈ id16.data, isHexDigitCh c = true) :
    isNewEntry (id16 ++ "\t" ++ rest) = true := by
  have hdata : (id16 ++ "\t" ++ rest).data = id16.data ++ '\t' :: rest.data := by
    simp [String.data_append]
  have hall : id16.data.all isHexDigitCh = true := List.all_eq_true.mpr hhex
  simp only [isNewEntry, hdata]
  rw [show (16 : Nat) = id16.data.length from hlen.symm, List.take_left,
    List.drop_left]
  simp [hall]

theorem isBlankLine_hexline (id16 rest : String)
    (hlen : id16.data.length = 16)
    (hhex : ∀ c ∈ id16.data, isHexDigitCh c = true) :
    isBlankLine (id16 ++ "\t" ++ rest) = false := by
  obtain ⟨x, xs, hx⟩ : ∃ x xs, id16.data = x :: xs := by
    cases hd : id16.data with
    | nil => rw [hd] at hlen; simp at hlen
    | cons a b => exact ⟨a, b, rfl⟩
  have hxs : isPySpace x = false :=
    (isHexDigitCh_not_ws (hhex x (by rw [hx]; exact List.mem_cons_self _ _))).2.1
  have hdata : (id16 ++ "\t" ++ rest).data = x :: (xs ++ '\t' :: rest.data) := by
    simp [String.data_append, hx]
  simp only [isBlankLine, hdata, List.all_cons, hxs]
  simp

theorem asmStep_new (st : AsmState) (n : Nat) (orig line a b : String)
    (hr : rstripNL orig = line) (hblank : isBlankLine line = false)
    (hnew : isNewEntry line = true) (hsplit : splitTabOnce line = [a, b]) :
    asmStep st (n, orig) =
      { current := [orig], startLine := some n, currId := some a,
        records := asmFlush st } := by
  simp only [asmStep, hr, hblank, hnew, hsplit]
  simp

theorem asmStep_cont (st : AsmState) (n : Nat) (orig line : String)
    (hr : rstripNL orig = line) (hblank : isBlankLine line = false)
    (hnew : isNewEntry line = false) (hcur : st.current ≠ []) :
    asmStep st (n, orig) = { st with current := st.current ++ [orig] } := by
  simp only [asmStep, hr, hblank, hnew]
  simp [hcur]

theorem asmStep_blank (st : AsmState) (n : Nat) (b : String)
    (hb : isBlankLine (rstripNL b) = true) : asmStep st (n, b) = st := by
  simp only [asmStep, hb]
  simp

/-- C6: a header line followed by one record-start line (16 hex characters
then a tab) and two non-blank continuation lines assembles into exactly one
record whose text is the three lines' payload joined by newlines, with only
the final line's terminator stripped; and blank lines are skipped entirely by
the assembler step — they neither flush nor extend the open record. -/
theorem claim6_assembler :
    (∀ (hdr id16 p1 c2 c3 : String),
      id16.data.length = 16 → (∀ c ∈ id16.data, isHexDigitCh c = true) →
      (∀ c ∈ p1.data, isNLCh c = false) →
      (∀ c ∈ c2.data, isNLCh c = false) → (∀ c ∈ c3.data, isNLCh c = false) →
      isBlankLine c2 = false → isBlankLine c3 = false →
      isNewEntry c2 = false → isNewEntry c3 = false →
      assemble [hdr, id16 ++ "\t" ++ p1 ++ "\n", c2 ++ "\n", c3 ++ "\n"] =
        [(2, id16,
          String.join [id16 ++ "\t" ++ p1 ++ "\n", c2 ++ "\n", c3 ++ "\n"])] ∧
      recordText
          (String.join [id16 ++ "\t" ++ p1 ++ "\n", c2 ++ "\n", c3 ++ "\n"]) =
        some (id16, p1 ++ "\n" ++ c2 ++ "\n" ++ c3)) ∧
    (∀ (st : AsmState) (n : Nat) (b : String),
      isBlankLine (rstripNL b) = true → asmStep st (n, b) = st) := by
  refine ⟨?_, fun st n b hb => asmStep_blank st n b hb⟩
  intro hdr id16 p1 c2 c3 hlen16 hhex hp1 hc2NL hc3NL hblank2 hblank3 hnew2 hnew3
  have hc2ne : c2.data ≠ [] := by
    intro hnil
    rw [isBlankLine, hnil] at hblank2
    simp at hblank2
  have hc3ne : c3.data ≠ [] := by
    intro hnil
    rw [isBlankLine, hnil] at hblank3
    simp at hblank3
  have hidtab : ∀ c ∈ id16.data, ¬c = '\t' :=
    fun c hc => (isHexDigitCh_not_ws (hhex c hc)).2.2
  have hB1 : ∀ c ∈ '\t' :: p1.data, isNLCh c = false := by
    intro c hc
    rcases List.mem_cons.mp hc with rfl | hm
    · decide
    · exact hp1 c hm
  have hr1 : rstripNL (id16 ++ "\t" ++ p1 ++ "\n") = id16 ++ "\t" ++ p1 :=
    rstripNL_eq id16.data ('\t' :: p1.data) (by simp [String.data_append])
      (by simp) hB1 (by simp [String.data_append])
  have hr2 : rstripNL (c2 ++ "\n") = c2 :=
    rstripNL_eq [] c2.data (by simp [String.data_append]) hc2ne hc2NL (by simp)
  have hr3 : rstripNL (c3 ++ "\n") = c3 :=
    rstripNL_eq [] c3.data (by simp [String.data_append]) hc3ne hc3NL (by simp)
  have hblank1 : isBlankLine (id16 ++ "\t" ++ p1) = false :=
    isBlankLine_hexline _ _ hlen16 hhex
  have hnew1 : isNewEntry (id16 ++ "\t" ++ p1) = true :=
    isNewEntry_hexline _ _ hlen16 hhex
  have hsplit1 : splitTabOnce (id16 ++ "\t" ++ p1) = [id16, p1] :=
    splitTabOnce_tab _ _ hidtab
  constructor
  · simp only [assemble, numberLines, List.foldl_cons, List.foldl_nil]
    rw [asmStep_new ⟨[], none, none, []⟩ 2 (id16 ++ "\t" ++ p1 ++ "\n")
      (id16 ++ "\t" ++ p1) id16 p1 hr1 hblank1 hnew1 hsplit1]
    rw [asmStep_cont _ 3 (c2 ++ "\n") c2 hr2 hblank2 hnew2 (by simp)]
    rw [asmStep_cont _ 4 (c3 ++ "\n") c3 hr3 hblank3 hnew3 (by simp)]
    rfl
  · have hrfull : rstripNL
        (String.join [id16 ++ "\t" ++ p1 ++ "\n", c2 ++ "\n", c3 ++ "\n"]) =
        id16 ++ "\t" ++ (p1 ++ "\n" ++ c2 ++ "\n" ++ c3) :=
      rstripNL_eq
        (id16.data ++ '\t' :: (p1.data ++ '\n' :: (c2.data ++ ['\n'])))
        c3.data
        (by simp [String.join, String.data_append])
        hc3ne hc3NL
        (by simp [String.data_append])
    have hsplitfull :
        splitTabOnce (id16 ++ "\t" ++ (p1 ++ "\n" ++ c2 ++ "\n" ++ c3)) =
          [id16, p1 ++ "\n" ++ c2 ++ "\n" ++ c3] :=
      splitTabOnce_tab _ _ hidtab
    simp only [recordText, hrfull, hsplitfull]

/-- C6 witness: the assembler theorem applied to a concrete file with one
header, one record-start line and two continuation lines. -/
theorem claim6_assembler_witness :
    ("0123456789abcdef".data.length = 16 ∧
      (∀ c ∈ "0123456789abcdef".data, isHexDigitCh c = true) ∧
      isBlankLine "world" = false ∧ isNewEntry "world" = false) ∧
    (assemble ["id\ttext", "0123456789abcdef" ++ "\t" ++ "hello" ++ "\n",
        "world" ++ "\n", "end" ++ "\n"] =
      [(2, "0123456789abcdef",
        String.join ["0123456789abcdef" ++ "\t" ++ "hello" ++ "\n",
          "world" ++ "\n", "end" ++ "\n"])] ∧
    recordText
        (String.join ["0123456789abcdef" ++ "\t" ++ "hello" ++ "\n",
          "world" ++ "\n", "end" ++ "\n"]) =
      some ("0123456789abcdef", "hello" ++ "\n" ++ "world" ++ "\n" ++ "end")) :=
  ⟨⟨by decide, by decide, by decide, by decide⟩,
    claim6_assembler.1 "id\ttext" "0123456789abcdef" "hello" "world" "end"
      (by decide) (by decide) (by decide) (by decide) (by decide) (by decide)
      (by decide) (by decide) (by decide)⟩

/-! ### Fuel irrelevance

Any fuel strictly larger than the remaining text length computes the same
result, so the `length + 1` fuel used by `scan` behaves as the unbounded
Python loops do. -/

theorem linkSpans_fuel (n : Nat) :
    ∀ (f1 f2 pos : Nat) (rem : List Char),
      rem.length ≤ n → rem.length < f1 → rem.length < f2 →
      linkSpans f1 pos rem = linkSpans f2 pos rem := by
  induction n with
  | zero =>
    intro f1 f2 pos rem hn h1 h2
    cases rem with
    | nil => cases f1 <;> cases f2 <;> rfl
    | cons c rest => simp at hn
  | succ n ih =>
    intro f1 f2 pos rem hn h1 h2
    cases rem with
    | nil => cases f1 <;> cases f2 <;> rfl
    | cons c rest =>
      obtain ⟨g1, rfl⟩ : ∃ g1, f1 = g1 + 1 := ⟨f1 - 1, by omega⟩
      obtain ⟨g2, rfl⟩ : ∃ g2, f2 = g2 + 1 := ⟨f2 - 1, by omega⟩
      simp only [List.length_cons] at hn h1 h2
      by_cases hc : c = '<'
      · rw [show linkSpans (g1 + 1) pos (c :: rest) =
            (if c = '<' then
              if (rest.findIdx (fun d => d = '>')) < rest.length then
                (pos, pos + (rest.findIdx (fun d => d = '>')) + 2) ::
                  linkSpans g1 (pos + (rest.findIdx (fun d => d = '>')) + 2)
                    (rest.drop ((rest.findIdx (fun d => d = '>')) + 1))
              else linkSpans g1 (pos + 1) rest
            else linkSpans g1 (pos + 1) rest) from rfl]
        rw [show linkSpans (g2 + 1) pos (c :: rest) =
            (if c = '<' then
              if (rest.findIdx (fun d => d = '>')) < rest.length then
                (pos, pos + (rest.findIdx (fun d => d = '>')) + 2) ::
                  linkSpans g2 (pos + (rest.findIdx (fun d => d = '>')) + 2)
                    (rest.drop ((rest.findIdx (fun d => d = '>')) + 1))
              else linkSpans g2 (pos + 1) rest
            else linkSpans g2 (pos + 1) rest) from rfl]
        rw [if_pos hc, if_pos hc]
        by_cases hk : (rest.findIdx (fun d => d = '>')) < rest.length
        · rw [if_pos hk, if_pos hk]
          congr 1
          apply ih
          · simp only [List.length_drop]; omega
          · simp only [List.length_drop]; omega
          · simp only [List.length_drop]; omega
        · rw [if_neg hk, if_neg hk]
          exact ih g1 g2 _ rest (by omega) (by omega) (by omega)
      · simp only [linkSpans]
        rw [if_neg hc, if_neg hc]
        exact ih g1 g2 _ rest (by omega) (by omega) (by omega)

theorem tagLoop_fuel (ranges : List (Nat × Nat)) (n : Nat) :
    ∀ (f1 f2 pos : Nat) (rem : List Char) (stack : List (Nat × String))
      (errs : Finset String),
      rem.length ≤ n → rem.length < f1 → rem.length < f2 →
      tagLoop ranges f1 pos rem stack errs =
        tagLoop ranges f2 pos rem stack errs := by
  induction n with
  | zero =>
    intro f1 f2 pos rem stack errs hn h1 h2
    cases rem with
    | nil => cases f1 <;> cases f2 <;> rfl
    | cons c rest => simp at hn
  | succ n ih =>
    intro f1 f2 pos rem stack errs hn h1 h2
    cases rem with
    | nil => cases f1 <;> cases f2 <;> rfl
    | cons c rest =>
      obtain ⟨g1, rfl⟩ : ∃ g1, f1 = g1 + 1 := ⟨f1 - 1, by omega⟩
      obtain ⟨g2, rfl⟩ : ∃ g2, f2 = g2 + 1 := ⟨f2 - 1, by omega⟩
      simp only [List.length_cons] at hn h1 h2
      simp only [tagLoop]
      repeat' split
      all_goals
        apply ih <;> simp only [List.length_drop, List.length_cons] at * <;> omega
